import Mathlib

/-!
Verification of the Standard MIDI File decoder and playback scheduler of this
repository (`src/web/lib/audio-engine.ts` / `midi-parser`, `src/web/app/page.tsx`,
`src/web/lib/midi-utils.ts`).

The decoder is embedded shallowly: the input is a byte buffer (`List Nat`, each
byte taken modulo 256 on read, like `DataView.getUint8`), cursor positions are
integers (a JavaScript number index; negative or out-of-range reads raise a
`RangeError`, modelled as `MidiError.rangeError`), times are exact rationals
(the JavaScript float arithmetic of the source performs only small exact
divisions and multiplications in the scenarios of interest), and the
`while (offset < trackEnd)` event loop is a fuel-indexed recursion (fuel
`bytes.length + 1`; the loop advances by at least one byte per iteration for
every input that does not make the original JavaScript loop run forever, so
fuel exhaustion never produces a `.ok` result and all `.ok`-conditioned
theorems are unaffected by the fuel bound).
-/

set_option maxRecDepth 4000

namespace PianoMidi

/-- A decoded note, mirroring `MidiNote` of `midi-parser.ts`:
pitch, start time in seconds, duration in seconds, velocity, channel. -/
structure MidiNote where
  pitch : Nat
  startTime : ℚ
  duration : ℚ
  velocity : Nat
  channel : Nat
deriving DecidableEq, Repr

/-- A tempo change entry `{time, bpm}` as produced by the decoder. -/
structure TempoChange where
  time : ℚ
  bpm : ℚ
deriving DecidableEq, Repr

/-- The decoder result `MidiData {notes, duration, tempoChanges}`. -/
structure MidiData where
  notes : List MidiNote
  duration : ℚ
  tempoChanges : List TempoChange
deriving DecidableEq, Repr

/-- Decode failures: the two explicit `throw new Error(...)` sites of
`parseMidiFile` plus the implicit `RangeError` a `DataView` read past the end
of the buffer raises. -/
inductive MidiError where
  | invalidHeader
  | invalidTrack
  | rangeError
deriving DecidableEq, Repr

instance {e a : Type} [DecidableEq e] [DecidableEq a] : DecidableEq (Except e a)
  | .ok x, .ok y => decidable_of_iff (x = y) (by simp)
  | .error x, .error y => decidable_of_iff (x = y) (by simp)
  | .ok _, .error _ => isFalse (by simp)
  | .error _, .ok _ => isFalse (by simp)

/-- Model of `dataView.getUint8(off)`: the byte at `off` (reduced mod 256),
or a `RangeError` for a negative or past-the-end index. -/
def getUint8 (bytes : List Nat) (off : Int) : Except MidiError Nat :=
  if 0 ≤ off then
    match bytes.get? off.toNat with
    | some b => .ok (b % 256)
    | none => .error .rangeError
  else .error .rangeError

/-- Model of `dataView.getUint16(off)`: big-endian pair of bytes. -/
def getUint16 (bytes : List Nat) (off : Int) : Except MidiError Nat :=
  match getUint8 bytes off with
  | .error e => .error e
  | .ok b0 =>
    match getUint8 bytes (off + 1) with
    | .error e => .error e
    | .ok b1 => .ok (b0 * 256 + b1)

/-- Model of `dataView.getUint32(off)`: big-endian quadruple of bytes. -/
def getUint32 (bytes : List Nat) (off : Int) : Except MidiError Nat :=
  match getUint16 bytes off with
  | .error e => .error e
  | .ok h =>
    match getUint16 bytes (off + 2) with
    | .error e => .error e
    | .ok l => .ok (h * 65536 + l)

/-- Model of `readString(dataView, offset, length)`: the list of the
`length` character codes starting at `offset`. -/
def readString (bytes : List Nat) (off : Int) (len : Nat) : Except MidiError (List Nat) :=
  (List.range len).mapM fun i => getUint8 bytes (off + i)

/-- The character codes of the chunk tag MThd. -/
def mthdTag : List Nat := [77, 84, 104, 100]

/-- The character codes of the chunk tag MTrk. -/
def mtrkTag : List Nat := [77, 84, 114, 107]

/-- One step of the VLQ accumulator `value = (value << 7) | (byte & 0x7f)`.
JavaScript `<<` and `|` operate on 32-bit two's complement integers; the
accumulator is tracked as its unsigned 32-bit bit pattern. -/
def vlqStep (value : Nat) (b : Nat) : Nat :=
  ((value <<< 7) ||| (b &&& 0x7f)) % 4294967296

/-- Reinterpret an unsigned 32-bit bit pattern as a signed JavaScript
bitwise-operator result. -/
def toInt32 (pattern : Nat) : Int :=
  if pattern < 2147483648 then (pattern : Int) else (pattern : Int) - 4294967296

/-- The do-while loop of `readVariableLength`, with fuel. The loop reads
`offset + bytesRead` each iteration, so it either terminates on a byte with
clear high bit or hits the end of the buffer; fuel `bytes.length + 1` is
always enough for it to do one or the other. -/
def readVariableLengthAux (bytes : List Nat) (off : Int) :
    Nat → Nat → Nat → Except MidiError (Int × Nat)
  | 0, _, _ => .error .rangeError
  | fuel + 1, value, bytesRead =>
    match getUint8 bytes (off + (bytesRead : Int)) with
    | .error e => .error e
    | .ok byte =>
      let value := vlqStep value byte
      let bytesRead := bytesRead + 1
      if byte &&& 0x80 ≠ 0 then readVariableLengthAux bytes off fuel value bytesRead
      else .ok (toInt32 value, bytesRead)

/-- Model of `readVariableLength(dataView, offset)`: returns
`(value, bytesRead)`. -/
def readVariableLength (bytes : List Nat) (off : Int) : Except MidiError (Int × Nat) :=
  readVariableLengthAux bytes off (bytes.length + 1) 0 0

/-- Model of `ticksToSeconds(ticks, ticksPerBeat, tempo)`:
`(ticks / ticksPerBeat) * (tempo / 1000000)`. -/
def ticksToSeconds (ticks : Int) (ticksPerBeat : Nat) (tempo : Nat) : ℚ :=
  ((ticks : ℚ) / (ticksPerBeat : ℚ)) * ((tempo : ℚ) / 1000000)

/-- An entry of the decoder's per-track `activeNotes` map:
`{startTime, velocity, channel}` recorded at Note-On. -/
structure ActiveNote where
  startTime : ℚ
  velocity : Nat
  channel : Nat
deriving DecidableEq, Repr

/-- `Map.set` on the association-list model of the JavaScript `Map`:
overwrite the entry of an existing key, else append. -/
def mapSet (m : List (Nat × ActiveNote)) (k : Nat) (v : ActiveNote) :
    List (Nat × ActiveNote) :=
  match m with
  | [] => [(k, v)]
  | (k₀, v₀) :: rest => if k₀ = k then (k, v) :: rest else (k₀, v₀) :: mapSet rest k v

/-- `Map.get` on the association-list model. -/
def mapGet (m : List (Nat × ActiveNote)) (k : Nat) : Option ActiveNote :=
  match m with
  | [] => none
  | (k₀, v₀) :: rest => if k₀ = k then some v₀ else mapGet rest k

/-- `Map.delete` on the association-list model (keys are unique). -/
def mapDelete (m : List (Nat × ActiveNote)) (k : Nat) : List (Nat × ActiveNote) :=
  match m with
  | [] => []
  | (k₀, v₀) :: rest => if k₀ = k then rest else (k₀, v₀) :: mapDelete rest k

/-- The decoder accumulator shared across tracks: the flat `notes` list,
`maxTime`, `tempoChanges`, and the live `currentTempo` (all declared once,
before the track loop, in `parseMidiFile`). -/
structure ParseAcc where
  notes : List MidiNote
  maxTime : ℚ
  tempoChanges : List TempoChange
  currentTempo : Nat
deriving DecidableEq, Repr

/-- The state of the event loop: the cursor, the per-track absolute tick
counter `time`, the per-track `activeNotes` map, and the shared accumulator. -/
structure EvState where
  offset : Int
  time : Int
  active : List (Nat × ActiveNote)
  acc : ParseAcc
deriving DecidableEq, Repr

/-- The `command === 0x90` (Note On) arm: read pitch and velocity; a positive
velocity opens a record in `activeNotes`, velocity 0 acts as a Note-Off,
closing the open record for the pitch (if any) and emitting a note. -/
def handleNoteOn (bytes : List Nat) (ticksPerBeat channel : Nat) (offset time : Int)
    (active : List (Nat × ActiveNote)) (acc : ParseAcc) : Except MidiError EvState :=
  match getUint8 bytes offset with
  | .error e => .error e
  | .ok pitch =>
    match getUint8 bytes (offset + 1) with
    | .error e => .error e
    | .ok velocity =>
      let timeInSeconds := ticksToSeconds time ticksPerBeat acc.currentTempo
      if velocity > 0 then
        .ok ⟨offset + 2, time, mapSet active pitch ⟨timeInSeconds, velocity, channel⟩, acc⟩
      else
        match mapGet active pitch with
        | some noteOn =>
          .ok ⟨offset + 2, time, mapDelete active pitch,
               { acc with
                 notes := acc.notes ++
                   [⟨pitch, noteOn.startTime, timeInSeconds - noteOn.startTime,
                     noteOn.velocity, noteOn.channel⟩],
                 maxTime := max acc.maxTime
                   (noteOn.startTime + (timeInSeconds - noteOn.startTime)) }⟩
        | none => .ok ⟨offset + 2, time, active, acc⟩

/-- The `command === 0x80` (Note Off) arm: read the pitch (the velocity byte
is skipped without a bounds check), close the open record for the pitch if
there is one and emit a note. -/
def handleNoteOff (bytes : List Nat) (ticksPerBeat : Nat) (offset time : Int)
    (active : List (Nat × ActiveNote)) (acc : ParseAcc) : Except MidiError EvState :=
  match getUint8 bytes offset with
  | .error e => .error e
  | .ok pitch =>
    let timeInSeconds := ticksToSeconds time ticksPerBeat acc.currentTempo
    match mapGet active pitch with
    | some noteOn =>
      .ok ⟨offset + 2, time, mapDelete active pitch,
           { acc with
             notes := acc.notes ++
               [⟨pitch, noteOn.startTime, timeInSeconds - noteOn.startTime,
                 noteOn.velocity, noteOn.channel⟩],
             maxTime := max acc.maxTime
               (noteOn.startTime + (timeInSeconds - noteOn.startTime)) }⟩
    | none => .ok ⟨offset + 2, time, active, acc⟩

/-- The `eventType === 0xff` (meta event) arm: read the meta type and VLQ
length; a Set Tempo (`0x51` with length exactly 3) updates `currentTempo`
from the three payload bytes and appends a `TempoChange` whose time is
converted with the *updated* tempo; every meta event then skips its payload. -/
def handleMeta (bytes : List Nat) (ticksPerBeat : Nat) (offset time : Int)
    (active : List (Nat × ActiveNote)) (acc : ParseAcc) : Except MidiError EvState :=
  match getUint8 bytes offset with
  | .error e => .error e
  | .ok metaType =>
    match readVariableLength bytes (offset + 1) with
    | .error e => .error e
    | .ok (metaLength, metaBytesRead) =>
      if metaType = 0x51 ∧ metaLength = 3 then
        match getUint8 bytes (offset + 1 + (metaBytesRead : Int)) with
        | .error e => .error e
        | .ok b0 =>
          match getUint8 bytes (offset + 1 + (metaBytesRead : Int) + 1) with
          | .error e => .error e
          | .ok b1 =>
            match getUint8 bytes (offset + 1 + (metaBytesRead : Int) + 2) with
            | .error e => .error e
            | .ok b2 =>
              .ok ⟨offset + 1 + (metaBytesRead : Int) + metaLength, time, active,
                   { acc with
                     currentTempo := ((b0 <<< 16) ||| (b1 <<< 8)) ||| b2,
                     tempoChanges := acc.tempoChanges ++
                       [⟨ticksToSeconds time ticksPerBeat (((b0 <<< 16) ||| (b1 <<< 8)) ||| b2),
                         (60000000 : ℚ) / ((((b0 <<< 16) ||| (b1 <<< 8)) ||| b2 : Nat) : ℚ)⟩] }⟩
      else .ok ⟨offset + 1 + (metaBytesRead : Int) + metaLength, time, active, acc⟩

/-- The `eventType === 0xf0 / 0xf7` (SysEx) arm: read a VLQ length and skip
that many bytes. -/
def handleSysEx (bytes : List Nat) (offset time : Int)
    (active : List (Nat × ActiveNote)) (acc : ParseAcc) : Except MidiError EvState :=
  match readVariableLength bytes offset with
  | .error e => .error e
  | .ok (sysexLength, sysexBytesRead) =>
    .ok ⟨offset + (sysexBytesRead : Int) + sysexLength, time, active, acc⟩

/-- The dispatch on `command = eventType & 0xf0` of the event loop body, after
the status byte has been determined; `offset` points at the first data byte.
An `eventType` matching none of the arms falls through the whole if-chain:
the event is silently ignored and the cursor does not advance further. -/
def parseEventDispatch (bytes : List Nat) (ticksPerBeat : Nat) (eventType : Nat)
    (offset : Int) (time : Int) (active : List (Nat × ActiveNote)) (acc : ParseAcc) :
    Except MidiError EvState :=
  if eventType &&& 0xf0 = 0x90 then
    handleNoteOn bytes ticksPerBeat (eventType &&& 0x0f) offset time active acc
  else if eventType &&& 0xf0 = 0x80 then
    handleNoteOff bytes ticksPerBeat offset time active acc
  else if eventType &&& 0xf0 = 0xb0 then .ok ⟨offset + 2, time, active, acc⟩
  else if eventType &&& 0xf0 = 0xc0 then .ok ⟨offset + 1, time, active, acc⟩
  else if eventType &&& 0xf0 = 0xe0 then .ok ⟨offset + 2, time, active, acc⟩
  else if eventType &&& 0xf0 = 0xa0 then .ok ⟨offset + 2, time, active, acc⟩
  else if eventType &&& 0xf0 = 0xd0 then .ok ⟨offset + 1, time, active, acc⟩
  else if eventType = 0xff then
    handleMeta bytes ticksPerBeat offset time active acc
  else if eventType = 0xf0 ∨ eventType = 0xf7 then
    handleSysEx bytes offset time active acc
  else .ok ⟨offset, time, active, acc⟩

/-- One iteration of the `while (offset < trackEnd)` loop: read the delta
time, read the candidate status byte, resolve the (buggy) running-status
rewind, and dispatch. For a candidate with clear high bit the source rewinds
the cursor by one and takes `dataView.getUint8(offset - 1)` — the byte just
before the candidate, i.e. the final delta-time byte — as the status. -/
def parseEventStep (bytes : List Nat) (ticksPerBeat : Nat) (s : EvState) :
    Except MidiError EvState :=
  match readVariableLength bytes s.offset with
  | .error e => .error e
  | .ok (deltaTime, bytesRead) =>
    let offset := s.offset + (bytesRead : Int)
    let time := s.time + deltaTime
    match getUint8 bytes offset with
    | .error e => .error e
    | .ok eventType =>
      if eventType &&& 0x80 = 0 then
        match getUint8 bytes (offset - 1) with
        | .error e => .error e
        | .ok eventType₁ =>
          parseEventDispatch bytes ticksPerBeat eventType₁ offset time s.active s.acc
      else
        parseEventDispatch bytes ticksPerBeat eventType (offset + 1) time s.active s.acc

/-- The fuel-indexed `while (offset < trackEnd)` event loop. -/
def parseEvents (bytes : List Nat) (ticksPerBeat : Nat) (trackEnd : Int) :
    Nat → EvState → Except MidiError EvState
  | 0, _ => .error .rangeError
  | fuel + 1, s =>
    if s.offset < trackEnd then
      match parseEventStep bytes ticksPerBeat s with
      | .error e => .error e
      | .ok s₁ => parseEvents bytes ticksPerBeat trackEnd fuel s₁
    else .ok s

/-- The `for (let track = 0; track < trackCount; track++)` loop: check the
MTrk tag, read the track length, and run the event loop with the tick counter
reset to `0` and a fresh `activeNotes` map, threading the shared accumulator
(including `currentTempo`) from track to track. -/
def parseTracks (bytes : List Nat) (ticksPerBeat : Nat) :
    Nat → Int → ParseAcc → Except MidiError (Int × ParseAcc)
  | 0, offset, acc => .ok (offset, acc)
  | n + 1, offset, acc =>
    match readString bytes offset 4 with
    | .error e => .error e
    | .ok trackChunkId =>
      if trackChunkId = mtrkTag then
        match getUint32 bytes (offset + 4) with
        | .error e => .error e
        | .ok trackLength =>
          let offset := offset + 8
          let trackEnd := offset + (trackLength : Int)
          match parseEvents bytes ticksPerBeat trackEnd (bytes.length + 1)
              ⟨offset, 0, [], acc⟩ with
          | .error e => .error e
          | .ok s => parseTracks bytes ticksPerBeat n s.offset s.acc
      else .error .invalidTrack

/-- The comparison used by `notes.sort((a, b) => a.startTime - b.startTime)`. -/
def noteLE (a b : MidiNote) : Prop := a.startTime ≤ b.startTime

instance : DecidableRel noteLE := fun a b => inferInstanceAs (Decidable (a.startTime ≤ b.startTime))

instance : IsTotal MidiNote noteLE := ⟨fun a b => le_total a.startTime b.startTime⟩

instance : IsTrans MidiNote noteLE := ⟨fun _ _ _ h₁ h₂ => le_trans h₁ h₂⟩

/-- Model of `parseMidiFile`: parse the MThd header (tag, length, format,
track count, division), then all tracks, then return the notes sorted stably
by start time together with `maxTime` and the tempo changes.
`Array.prototype.sort` is a stable sort (ECMAScript 2019), and the stable
ascending sort of a list is unique, so it is modelled by insertion sort. -/
def parseMidiFile (bytes : List Nat) : Except MidiError MidiData :=
  match readString bytes 0 4 with
  | .error e => .error e
  | .ok headerChunkId =>
    if headerChunkId = mthdTag then
      match getUint32 bytes 4 with
      | .error e => .error e
      | .ok _headerLength =>
        match getUint16 bytes 8 with
        | .error e => .error e
        | .ok _format =>
          match getUint16 bytes 10 with
          | .error e => .error e
          | .ok trackCount =>
            match getUint16 bytes 12 with
            | .error e => .error e
            | .ok division =>
              let ticksPerBeat := division &&& 0x7fff
              match parseTracks bytes ticksPerBeat trackCount 14 ⟨[], 0, [], 500000⟩ with
              | .error e => .error e
              | .ok (_, acc) =>
                .ok { notes := acc.notes.insertionSort noteLE,
                      duration := acc.maxTime,
                      tempoChanges := acc.tempoChanges }
    else .error .invalidHeader

/-- The decoder's ticks-per-beat value: the division word of the header
(bytes 12–13) with the SMPTE bit masked off, `division & 0x7fff`. -/
def headerTicksPerBeat (bytes : List Nat) : Except MidiError Nat :=
  match getUint16 bytes 12 with
  | .error e => .error e
  | .ok division => .ok (division &&& 0x7fff)

/-- Every delta-time and length VLQ in `bytes` decodes to a non-negative
value at every offset where a decode succeeds (a VLQ of five or more bytes
can overflow the 32-bit accumulator of `value << 7 | byte` and come out
negative; this predicate excludes such inputs). -/
def vlqValueAt (bytes : List Nat) (off : Int) : Int :=
  match readVariableLength bytes off with
  | .ok (v, _) => v
  | .error _ => 0

/-- The non-negative-VLQ input condition, quantified over every cursor
position. -/
def NonnegVLQs (bytes : List Nat) : Prop :=
  ∀ off : Int, 0 ≤ vlqValueAt bytes off

/-! ### The playback scheduler of `src/web/app/page.tsx` -/

/-- The scheduler state: the `currentTime` play-head, the `isPlaying` flag,
the `scheduledNotesRef` set (note identities, modelled as indices into the
note list), and the `currentlyPlayingNotes` set local to the playback
effect's closure. -/
structure PlayState where
  currentTime : ℚ
  isPlaying : Bool
  scheduled : List Nat
  currentlyPlaying : List Nat
deriving DecidableEq, Repr

/-- `Set.add` on the list model of a JavaScript `Set` of pitches. -/
def insertPitch (s : List Nat) (p : Nat) : List Nat :=
  if p ∈ s then s else s ++ [p]

/-- The `midiData.notes.forEach` body of `tick`: walk the (indexed) note
list, collecting the new active-pitch set, the pitches to trigger, the
updated scheduled set, and the list of notes dispatched to
`audioEngine.playNote` (in order). The trigger test reads the
`currentlyPlayingNotes` set as it was at the start of the tick (it is only
mutated after the loop) but mutates the scheduled set as it goes. -/
def tickScan (newTime : ℚ) (currentlyPlaying : List Nat) :
    List (Nat × MidiNote) → List Nat → List Nat → List Nat → List Nat →
    List Nat × List Nat × List Nat × List Nat
  | [], newActive, toTrigger, scheduled, dispatched =>
    (newActive, toTrigger, scheduled, dispatched)
  | (i, note) :: rest, newActive, toTrigger, scheduled, dispatched =>
    if note.startTime ≤ newTime ∧ newTime < note.startTime + note.duration then
      let newActive := insertPitch newActive note.pitch
      if note.pitch ∉ currentlyPlaying ∧ i ∉ scheduled then
        tickScan newTime currentlyPlaying rest newActive (insertPitch toTrigger note.pitch)
          (i :: scheduled) (dispatched ++ [i])
      else tickScan newTime currentlyPlaying rest newActive toTrigger scheduled dispatched
    else tickScan newTime currentlyPlaying rest newActive toTrigger scheduled dispatched

/-- One invocation of the `tick` callback of the playback loop, with `dt` the
already-speed-scaled wall-clock delta `((now - lastTime) / 1000) * speed`.
Returns the new state and the indices of the notes dispatched to the audio
engine this tick. -/
def tick (notes : List MidiNote) (totalDuration : ℚ) (dt : ℚ) (s : PlayState) :
    PlayState × List Nat :=
  let newTime := s.currentTime + dt
  match tickScan newTime s.currentlyPlaying notes.enum [] [] s.scheduled [] with
  | (newActive, toTrigger, scheduled₁, dispatched) =>
    let kept := s.currentlyPlaying.filter fun p => p ∈ newActive
    let currentlyPlaying := toTrigger.foldl insertPitch kept
    let scheduled₂ := scheduled₁.filter fun i =>
      match notes.get? i with
      | some n => !decide (n.startTime + n.duration < newTime)
      | none => true
    if totalDuration ≤ newTime then
      (⟨totalDuration, false, scheduled₂, currentlyPlaying⟩, dispatched)
    else
      (⟨newTime, s.isPlaying, scheduled₂, currentlyPlaying⟩, dispatched)

/-- `handleSeek(time)`: clamp the play-head with
`Math.max(0, Math.min(time, midiData?.duration || 0))`, clear the scheduled
set, and silence the audio engine. The `currentlyPlayingNotes` set lives in
the playback effect's closure and is not touched by `handleSeek`. -/
def handleSeek (totalDuration : ℚ) (t : ℚ) (s : PlayState) : PlayState :=
  { s with currentTime := max 0 (min t totalDuration), scheduled := [] }

/-- Iterate `tick` over a list of deltas, accumulating every dispatched note
index. -/
def runTicks (notes : List MidiNote) (totalDuration : ℚ) :
    List ℚ → PlayState → PlayState × List Nat
  | [], s => (s, [])
  | dt :: dts, s =>
    match tick notes totalDuration dt s with
    | (s₁, dispatched) =>
      match runTicks notes totalDuration dts s₁ with
      | (s₂, rest) => (s₂, dispatched ++ rest)

/-! ### The rhythm-game scoring of `src/web/lib/midi-utils.ts` and the
`handleNoteHit` state update of the `MidiPlayer` component -/

/-- The hit classification. -/
inductive HitRating where
  | perfect
  | good
  | miss
deriving DecidableEq, Repr

/-- Model of `calculateNoteScore(rating, combo)`:
`Math.floor(baseScore * (1 + Math.floor(combo / 10) * 0.1))` with
`baseScore = 100 / 50 / 0`. The combo counter is a natural number, so
`Math.floor(combo / 10)` is natural division. -/
def calculateNoteScore (rating : HitRating) (combo : Nat) : ℤ :=
  let baseScore : ℚ := match rating with
    | .perfect => 100
    | .good => 50
    | .miss => 0
  let comboMultiplier : ℚ := 1 + ((combo / 10 : Nat) : ℚ) * (1 / 10)
  ⌊baseScore * comboMultiplier⌋

/-- The `GameScore` record of `midi-utils.ts`. -/
structure GameScore where
  perfect : Nat
  good : Nat
  miss : Nat
  combo : Nat
  maxCombo : Nat
  score : ℤ
deriving DecidableEq, Repr

/-- The `setGameScore` updater of `handleNoteHit`: bump the counter of the
rating, recompute the combo (reset on miss, else increment), track the
maximum combo, and add `calculateNoteScore(rating, prev.combo)` — computed
from the combo value before the update — to the score. -/
def applyNoteHit (rating : HitRating) (prev : GameScore) : GameScore :=
  let newCombo := if rating = .miss then 0 else prev.combo + 1
  let scoreGain := calculateNoteScore rating prev.combo
  { prev with
    perfect := if rating = .perfect then prev.perfect + 1 else prev.perfect,
    good := if rating = .good then prev.good + 1 else prev.good,
    miss := if rating = .miss then prev.miss + 1 else prev.miss,
    combo := newCombo,
    maxCombo := max prev.maxCombo newCombo,
    score := prev.score + scoreGain }

/-! ### Concrete inputs used by the claim theorems -/

/-- A one-track file (division 1) that uses running status: Note-On 60
velocity 100 at tick 0, then a status-less `3C 00` (Note-On 60 velocity 0,
i.e. a note-off, under running status). -/
def c1Bytes : List Nat :=
  [0x4D, 0x54, 0x68, 0x64, 0, 0, 0, 6, 0, 0, 0, 1, 0x00, 0x01,
   0x4D, 0x54, 0x72, 0x6B, 0, 0, 0, 7,
   0x00, 0x90, 0x3C, 0x64, 0x00, 0x3C, 0x00]

/-- The spec's example scenario: division 480, Set Tempo 500000 µs at tick 0,
Note-On 60 velocity 100 at tick 0, Note-Off 60 at tick 480. -/
def c2Bytes : List Nat :=
  [0x4D, 0x54, 0x68, 0x64, 0, 0, 0, 6, 0, 0, 0, 1, 0x01, 0xE0,
   0x4D, 0x54, 0x72, 0x6B, 0, 0, 0, 16,
   0x00, 0xFF, 0x51, 0x03, 0x07, 0xA1, 0x20,
   0x00, 0x90, 0x3C, 0x64,
   0x83, 0x60, 0x80, 0x3C, 0x00]

/-- Division 480; a Set Tempo meta-event to 250000 µs at tick 480 (the tick
time 480 converts to 1/2 s under the old tempo 500000 and to 1/4 s under the
new tempo 250000). -/
def c3Bytes : List Nat :=
  [0x4D, 0x54, 0x68, 0x64, 0, 0, 0, 6, 0, 0, 0, 1, 0x01, 0xE0,
   0x4D, 0x54, 0x72, 0x6B, 0, 0, 0, 8,
   0x83, 0x60, 0xFF, 0x51, 0x03, 0x03, 0xD0, 0x90]

/-- Division 1; Note-On 60 at tick 1, Set Tempo dropping to 1 µs per quarter
at tick 1, Note-Off 60 at tick 2 — the note's end time converts with the new
tiny tempo, far before its start time. -/
def c4Bytes : List Nat :=
  [0x4D, 0x54, 0x68, 0x64, 0, 0, 0, 6, 0, 0, 0, 1, 0x00, 0x01,
   0x4D, 0x54, 0x72, 0x6B, 0, 0, 0, 15,
   0x01, 0x90, 0x3C, 0x64,
   0x00, 0xFF, 0x51, 0x03, 0x00, 0x00, 0x01,
   0x01, 0x80, 0x3C, 0x00]

/-- Division 1; a single plain note (Note-On 60 at tick 0, Note-Off at
tick 1) and no tempo events. -/
def c4wBytes : List Nat :=
  [0x4D, 0x54, 0x68, 0x64, 0, 0, 0, 6, 0, 0, 0, 1, 0x00, 0x01,
   0x4D, 0x54, 0x72, 0x6B, 0, 0, 0, 8,
   0x00, 0x90, 0x3C, 0x64, 0x01, 0x80, 0x3C, 0x00]

/-- Division 1; an event with status byte `b` at tick 0, then Note-On 60 at
tick 0 and Note-Off 60 at tick 1. For `b` outside the recognized commands
the decoder's if-chain has no arm and the event is silently skipped. -/
def c5Bytes (b : Nat) : List Nat :=
  [0x4D, 0x54, 0x68, 0x64, 0, 0, 0, 6, 0, 0, 0, 1, 0x00, 0x01,
   0x4D, 0x54, 0x72, 0x6B, 0, 0, 0, 10,
   0x00, b, 0x00, 0x90, 0x3C, 0x64, 0x01, 0x80, 0x3C, 0x00]

/-- The thirteen status bytes with command nibble `0xF` that match none of
the decoder's arms (every byte except `0xF0`, `0xF7` and `0xFF`). -/
def unrecognizedStatusBytes : List Nat :=
  [0xF1, 0xF2, 0xF3, 0xF4, 0xF5, 0xF6, 0xF8, 0xF9, 0xFA, 0xFB, 0xFC, 0xFD, 0xFE]

/-- Division 1; the delta time `FF FF FF FF 7F` is a five-byte VLQ whose
32-bit accumulator overflows to `-1`, so the Note-On lands at tick `-1`;
the Note-Off follows at the same tick. -/
def c7Bytes : List Nat :=
  [0x4D, 0x54, 0x68, 0x64, 0, 0, 0, 6, 0, 0, 0, 1, 0x00, 0x01,
   0x4D, 0x54, 0x72, 0x6B, 0, 0, 0, 12,
   0xFF, 0xFF, 0xFF, 0xFF, 0x7F, 0x90, 0x3C, 0x64,
   0x00, 0x80, 0x3C, 0x00]

/-- A two-track file, division 1: track 1 contains only a Set Tempo to
250000 µs at tick `e`; track 2 contains Note-On 60 at tick 0 and Note-Off 60
at tick `d`. -/
def c10Bytes (d e : Nat) : List Nat :=
  [0x4D, 0x54, 0x68, 0x64, 0, 0, 0, 6, 0, 0, 0, 2, 0x00, 0x01,
   0x4D, 0x54, 0x72, 0x6B, 0, 0, 0, 7,
   e, 0xFF, 0x51, 0x03, 0x03, 0xD0, 0x90,
   0x4D, 0x54, 0x72, 0x6B, 0, 0, 0, 8,
   0x00, 0x90, 0x3C, 0x64, d, 0x80, 0x3C, 0x00]

/-- The expected decode of `c10Bytes d e`: the track-2 note converts with
track 1's tempo 250000 (a quarter of a second per tick at division 1) and
starts at time 0 because the tick counter restarts at track 2. -/
def c10Check (d e : Nat) : Bool :=
  decide (parseMidiFile (c10Bytes d e) =
    .ok ⟨[⟨60, 0, (d : ℚ) / 4, 100, 0⟩], (d : ℚ) / 4, [⟨(e : ℚ) / 4, 240⟩]⟩)

/-- The decode-time invariant of the `activeNotes` map: every open record was
stored with `startTime` converted from some tick `t` not beyond the current
tick counter, using the current tempo. -/
def ActiveInv (ticksPerBeat tempo : Nat) (time : Int) (active : List (Nat × ActiveNote)) : Prop :=
  ∀ pe ∈ active, ∃ t : ℤ, t ≤ time ∧ pe.2.startTime = ticksToSeconds t ticksPerBeat tempo

/-- The accumulation step of `maxTime`:
`maxTime = Math.max(maxTime, note.startTime + duration)`. -/
def maxEnd (m : ℚ) (x : MidiNote) : ℚ := max m (x.startTime + x.duration)

instance : RightCommutative maxEnd :=
  ⟨fun b a₁ a₂ => by
    unfold maxEnd
    rw [max_assoc, max_assoc, max_comm (a₁.startTime + a₁.duration)]⟩

/-! ### Helper lemmas -/

theorem mem_mapSet {m : List (Nat × ActiveNote)} {k : Nat} {v : ActiveNote}
    {pe : Nat × ActiveNote} (h : pe ∈ mapSet m k v) : pe = (k, v) ∨ pe ∈ m := by
  induction m with
  | nil =>
    simp only [mapSet, List.mem_singleton] at h
    exact Or.inl h
  | cons hd tl ih =>
    obtain ⟨k₀, v₀⟩ := hd
    unfold mapSet at h
    by_cases hk : k₀ = k
    · simp only [if_pos hk, List.mem_cons] at h
      rcases h with h | h
      · exact Or.inl h
      · exact Or.inr (List.mem_cons_of_mem _ h)
    · simp only [if_neg hk, List.mem_cons] at h
      rcases h with h | h
      · exact Or.inr (h ▸ List.mem_cons_self _ _)
      · rcases ih h with h | h
        · exact Or.inl h
        · exact Or.inr (List.mem_cons_of_mem _ h)

theorem mapGet_mem {m : List (Nat × ActiveNote)} {k : Nat} {v : ActiveNote}
    (h : mapGet m k = some v) : (k, v) ∈ m := by
  induction m with
  | nil => simp [mapGet] at h
  | cons hd tl ih =>
    obtain ⟨k₀, v₀⟩ := hd
    unfold mapGet at h
    by_cases hk : k₀ = k
    · simp only [if_pos hk] at h
      subst hk
      cases h
      exact List.mem_cons_self _ _
    · simp only [if_neg hk] at h
      exact List.mem_cons_of_mem _ (ih h)

theorem mem_mapDelete {m : List (Nat × ActiveNote)} {k : Nat} {pe : Nat × ActiveNote}
    (h : pe ∈ mapDelete m k) : pe ∈ m := by
  induction m with
  | nil => simpa [mapDelete] using h
  | cons hd tl ih =>
    obtain ⟨k₀, v₀⟩ := hd
    unfold mapDelete at h
    by_cases hk : k₀ = k
    · simp only [if_pos hk] at h
      exact List.mem_cons_of_mem _ h
    · simp only [if_neg hk, List.mem_cons] at h
      rcases h with h | h
      · exact h ▸ List.mem_cons_self _ _
      · exact List.mem_cons_of_mem _ (ih h)

theorem ticksToSeconds_mono {t u : ℤ} (ticksPerBeat tempo : Nat) (h : t ≤ u) :
    ticksToSeconds t ticksPerBeat tempo ≤ ticksToSeconds u ticksPerBeat tempo := by
  unfold ticksToSeconds
  have hd : (0 : ℚ) ≤ (tempo : ℚ) / 1000000 := by positivity
  refine mul_le_mul_of_nonneg_right ?_ hd
  rcases Nat.eq_zero_or_pos ticksPerBeat with h0 | hpos
  · simp [h0]
  · have hc : (0 : ℚ) < (ticksPerBeat : ℚ) := by exact_mod_cast hpos
    exact (div_le_div_iff_of_pos_right hc).mpr (by exact_mod_cast h)

/-! ### Claim theorems: concrete evaluations -/

/-- C1. The decoder does not implement running status as specified: on
`c1Bytes` (Note-On 60, then the status-less data bytes `3C 00` that running
status should read as a Note-On of velocity 0 on the same channel, yielding
one zero-length note), the code instead takes the byte before the data
byte — the final delta-time byte — as the status, matches no dispatch arm,
desynchronizes, and aborts the whole decode with a `RangeError`. -/
theorem c1_running_status_misparses :
    parseMidiFile c1Bytes = .error .rangeError := by
  decide!

/-- C2 counterexample. The spec's example scenario actually decodes with note
duration and total duration 1/2 second — 480 ticks at 480 ticks per beat and
500000 µs per beat is half a second — not the claimed 1.0. -/
theorem c2_example_refuted :
    parseMidiFile c2Bytes = .ok ⟨[⟨60, 0, 1/2, 100, 0⟩], 1/2, [⟨0, 120⟩]⟩ ∧
    ((1 : ℚ)/2 ≠ 1) := by
  refine ⟨by decide!, by norm_num⟩

/-- C2 amended. The example scenario decodes to exactly one note
`{pitch 60, startTime 0, duration 0.5, velocity 100, channel 0}`, total
duration 0.5, and tempo changes `[{time 0, bpm 120}]`. -/
theorem c2_example_decodes :
    parseMidiFile c2Bytes = .ok ⟨[⟨60, 0, 1/2, 100, 0⟩], 1/2, [⟨0, 120⟩]⟩ := by
  decide!

/-- C3 counterexample. A Set Tempo to 250000 µs at tick 480 (division 480)
is recorded with `time = 1/4` — tick 480 converted with the *new* tempo —
although the tempo in effect before the event (500000) converts tick 480 to
`1/2`; the claim requires the old-tempo conversion. -/
theorem c3_time_uses_new_tempo :
    parseMidiFile c3Bytes = .ok ⟨[], 0, [⟨1/4, 240⟩]⟩ ∧
    ticksToSeconds 480 480 500000 = 1/2 ∧ ((1 : ℚ)/4 ≠ 1/2) := by
  refine ⟨by decide!, by decide!, by norm_num⟩

/-- C4 counterexample. With a Set Tempo (to 1 µs per beat) between a note's
Note-On (tick 1) and Note-Off (tick 2), the note's end time converts with
the new tempo to `2/1000000`, far before its start time `1/2`, and the
emitted note has strictly negative duration. -/
theorem c4_negative_duration :
    parseMidiFile c4Bytes =
      .ok ⟨[⟨60, 1/2, -(249999/500000), 100, 0⟩], 1/500000, [⟨1/1000000, 60000000⟩]⟩ ∧
    (-(249999/500000) : ℚ) < 0 := by
  refine ⟨by decide!, by norm_num⟩

/-- C5 counterexample. A track whose first event has the unrecognized status
byte `0xF8` does not abort the decode: the byte is silently skipped and the
decoder returns a non-empty note list. -/
theorem c5_unrecognized_not_fatal :
    parseMidiFile (c5Bytes 0xF8) = .ok ⟨[⟨60, 0, 1/2, 100, 0⟩], 1/2, []⟩ := by
  decide!

/-- C5 amended. For each of the thirteen status bytes that match none of the
decoder's dispatch arms (`0xF1`–`0xF6`, `0xF8`–`0xFE`), the event is
silently ignored — only its status byte is consumed — and the decode
continues and succeeds. -/
theorem c5_unrecognized_skipped :
    ∀ b ∈ unrecognizedStatusBytes,
      parseMidiFile (c5Bytes b) = .ok ⟨[⟨60, 0, 1/2, 100, 0⟩], 1/2, []⟩ := by
  intro b hb
  simp only [unrecognizedStatusBytes, List.mem_cons, List.not_mem_nil, or_false] at hb
  rcases hb with rfl | rfl | rfl | rfl | rfl | rfl | rfl | rfl | rfl | rfl | rfl | rfl | rfl <;>
    decide!

/-- C5 witness: the amended theorem applied at the concrete byte `0xFA`. -/
theorem c5_unrecognized_skipped_witness :
    parseMidiFile (c5Bytes 0xFA) = .ok ⟨[⟨60, 0, 1/2, 100, 0⟩], 1/2, []⟩ :=
  c5_unrecognized_skipped 0xFA (by decide)

/-- C7 counterexample. The five-byte delta time `FF FF FF FF 7F` overflows
the 32-bit VLQ accumulator to `-1`, putting the only note at start time
`-1/2` with duration 0; the returned total duration is the `Math.max`
accumulation started at 0, which is `0`, not the claimed maximum of
`startTime + duration` over all notes (`-1/2`). -/
theorem c7_duration_not_max :
    parseMidiFile c7Bytes = .ok ⟨[⟨60, -(1/2), 0, 100, 0⟩], 0, []⟩ ∧
    ((0 : ℚ) ≠ -(1/2) + 0) := by
  refine ⟨by decide!, by norm_num⟩

set_option maxHeartbeats 1600000 in
/-- C10. In a two-track file the absolute tick counter restarts at 0 for the
second track (the note of track 2 starts at time 0 whatever tick `e` the
track-1 tempo event sits at), while the live tempo is not reset: the
conversions of every track-2 event use the 250000 µs tempo set in track 1
(tick `d` converts to `d/4` seconds at division 1), for all `d, e < 16`. -/
theorem c10_tempo_threads_across_tracks :
    ∀ d e : Nat, d < 16 → e < 16 →
      parseMidiFile (c10Bytes d e) =
        .ok ⟨[⟨60, 0, (d : ℚ) / 4, 100, 0⟩], (d : ℚ) / 4, [⟨(e : ℚ) / 4, 240⟩]⟩ := by
  have hall : ((List.range 16).all fun d => (List.range 16).all fun e => c10Check d e) = true := by
    decide!
  intro d e hd he
  have h₁ := List.all_eq_true.mp hall d (List.mem_range.mpr hd)
  have h₂ := List.all_eq_true.mp h₁ e (List.mem_range.mpr he)
  exact of_decide_eq_true h₂

/-- C10 witness: the theorem applied at `d = 3`, `e = 5`. -/
theorem c10_tempo_threads_across_tracks_witness :
    parseMidiFile (c10Bytes 3 5) =
      .ok ⟨[⟨60, 0, (3 : ℚ) / 4, 100, 0⟩], (3 : ℚ) / 4, [⟨(5 : ℚ) / 4, 240⟩]⟩ :=
  c10_tempo_threads_across_tracks 3 5 (by norm_num) (by norm_num)

/-! ### Decoder invariant lemmas -/

theorem handleNoteOn_spec {bytes : List Nat} {tpb channel : Nat} {offset time : Int}
    {active : List (Nat × ActiveNote)} {acc : ParseAcc} {s₂ : EvState}
    (h : handleNoteOn bytes tpb channel offset time active acc = .ok s₂) :
    s₂.time = time ∧ s₂.acc.tempoChanges = acc.tempoChanges ∧
    s₂.acc.currentTempo = acc.currentTempo ∧
    ∃ new, s₂.acc.notes = acc.notes ++ new ∧
      s₂.acc.maxTime = new.foldl maxEnd acc.maxTime ∧
      (ActiveInv tpb acc.currentTempo time active →
        (∀ x ∈ new, 0 ≤ x.duration) ∧ ActiveInv tpb acc.currentTempo time s₂.active) := by
  cases hpitch : getUint8 bytes offset with
  | error e => simp [handleNoteOn, hpitch] at h
  | ok pitch =>
  cases hvel : getUint8 bytes (offset + 1) with
  | error e => simp [handleNoteOn, hpitch, hvel] at h
  | ok velocity =>
  by_cases hv : velocity > 0
  · -- velocity > 0: open a record
    simp only [handleNoteOn, hpitch, hvel, if_pos hv] at h
    injection h with h₂
    subst h₂
    refine ⟨rfl, rfl, rfl, [], (List.append_nil _).symm, rfl, fun hInv => ⟨by simp, ?_⟩⟩
    intro pe hpe
    rcases mem_mapSet hpe with hpe | hpe
    · subst hpe
      exact ⟨time, le_refl _, rfl⟩
    · exact hInv pe hpe
  · cases hget : mapGet active pitch with
    | some noteOn =>
      -- velocity 0 closing an open record: emit a note
      simp only [handleNoteOn, hpitch, hvel, if_neg hv, hget] at h
      injection h with h₂
      subst h₂
      refine ⟨rfl, rfl, rfl,
        [⟨pitch, noteOn.startTime,
          ticksToSeconds time tpb acc.currentTempo - noteOn.startTime,
          noteOn.velocity, noteOn.channel⟩], rfl, by simp [maxEnd], fun hInv => ⟨?_, ?_⟩⟩
      · intro x hx
        rw [List.mem_singleton] at hx
        subst hx
        obtain ⟨t, ht, hst⟩ := hInv _ (mapGet_mem hget)
        simp only
        rw [hst]
        exact sub_nonneg.mpr (ticksToSeconds_mono tpb acc.currentTempo ht)
      · intro pe hpe
        exact hInv pe (mem_mapDelete hpe)
    | none =>
      simp only [handleNoteOn, hpitch, hvel, if_neg hv, hget] at h
      injection h with h₂
      subst h₂
      exact ⟨rfl, rfl, rfl, [], (List.append_nil _).symm, rfl,
        fun hInv => ⟨by simp, fun pe hpe => hInv pe hpe⟩⟩

theorem handleNoteOff_spec {bytes : List Nat} {tpb : Nat} {offset time : Int}
    {active : List (Nat × ActiveNote)} {acc : ParseAcc} {s₂ : EvState}
    (h : handleNoteOff bytes tpb offset time active acc = .ok s₂) :
    s₂.time = time ∧ s₂.acc.tempoChanges = acc.tempoChanges ∧
    s₂.acc.currentTempo = acc.currentTempo ∧
    ∃ new, s₂.acc.notes = acc.notes ++ new ∧
      s₂.acc.maxTime = new.foldl maxEnd acc.maxTime ∧
      (ActiveInv tpb acc.currentTempo time active →
        (∀ x ∈ new, 0 ≤ x.duration) ∧ ActiveInv tpb acc.currentTempo time s₂.active) := by
  cases hpitch : getUint8 bytes offset with
  | error e => simp [handleNoteOff, hpitch] at h
  | ok pitch =>
  cases hget : mapGet active pitch with
  | some noteOn =>
    simp only [handleNoteOff, hpitch, hget] at h
    injection h with h₂
    subst h₂
    refine ⟨rfl, rfl, rfl,
      [⟨pitch, noteOn.startTime,
        ticksToSeconds time tpb acc.currentTempo - noteOn.startTime,
        noteOn.velocity, noteOn.channel⟩], rfl, by simp [maxEnd], fun hInv => ⟨?_, ?_⟩⟩
    · intro x hx
      rw [List.mem_singleton] at hx
      subst hx
      obtain ⟨t, ht, hst⟩ := hInv _ (mapGet_mem hget)
      simp only
      rw [hst]
      exact sub_nonneg.mpr (ticksToSeconds_mono tpb acc.currentTempo ht)
    · intro pe hpe
      exact hInv pe (mem_mapDelete hpe)
  | none =>
    simp only [handleNoteOff, hpitch, hget] at h
    injection h with h₂
    subst h₂
    exact ⟨rfl, rfl, rfl, [], (List.append_nil _).symm, rfl,
      fun hInv => ⟨by simp, fun pe hpe => hInv pe hpe⟩⟩

theorem handleMeta_spec {bytes : List Nat} {tpb : Nat} {offset time : Int}
    {active : List (Nat × ActiveNote)} {acc : ParseAcc} {s₂ : EvState}
    (h : handleMeta bytes tpb offset time active acc = .ok s₂) :
    s₂.time = time ∧ s₂.active = active ∧ s₂.acc.notes = acc.notes ∧
    s₂.acc.maxTime = acc.maxTime ∧
    ∃ newTCs, s₂.acc.tempoChanges = acc.tempoChanges ++ newTCs ∧
      (∀ tc ∈ newTCs, ∃ (t : ℤ) (us : ℕ),
        tc.time = ticksToSeconds t tpb us ∧ tc.bpm = (60000000 : ℚ) / (us : ℚ)) ∧
      (newTCs = [] → s₂.acc.currentTempo = acc.currentTempo) := by
  cases hmt : getUint8 bytes offset with
  | error e => simp [handleMeta, hmt] at h
  | ok metaType =>
  cases hlen : readVariableLength bytes (offset + 1) with
  | error e => simp [handleMeta, hmt, hlen] at h
  | ok p =>
  obtain ⟨metaLength, metaBytesRead⟩ := p
  by_cases hc : metaType = 0x51 ∧ metaLength = 3
  · cases hb0 : getUint8 bytes (offset + 1 + (metaBytesRead : Int)) with
    | error e => simp [handleMeta, hmt, hlen, hc, hb0] at h
    | ok b0 =>
    cases hb1 : getUint8 bytes (offset + 1 + (metaBytesRead : Int) + 1) with
    | error e => simp [handleMeta, hmt, hlen, hc, hb0, hb1] at h
    | ok b1 =>
    cases hb2 : getUint8 bytes (offset + 1 + (metaBytesRead : Int) + 2) with
    | error e => simp [handleMeta, hmt, hlen, hc, hb0, hb1, hb2] at h
    | ok b2 =>
    simp only [handleMeta, hmt, hlen, if_pos hc, hb0, hb1, hb2] at h
    injection h with h₂
    subst h₂
    refine ⟨rfl, rfl, rfl, rfl,
      [⟨ticksToSeconds time tpb (((b0 <<< 16) ||| (b1 <<< 8)) ||| b2),
        (60000000 : ℚ) / ((((b0 <<< 16) ||| (b1 <<< 8)) ||| b2 : Nat) : ℚ)⟩],
      rfl, ?_, by simp⟩
    intro tc htc
    rw [List.mem_singleton] at htc
    subst htc
    exact ⟨time, ((b0 <<< 16) ||| (b1 <<< 8)) ||| b2, rfl, rfl⟩
  · simp only [handleMeta, hmt, hlen, if_neg hc] at h
    injection h with h₂
    subst h₂
    exact ⟨rfl, rfl, rfl, rfl, [], (List.append_nil _).symm, by simp, fun _ => rfl⟩

theorem handleSysEx_spec {bytes : List Nat} {offset time : Int}
    {active : List (Nat × ActiveNote)} {acc : ParseAcc} {s₂ : EvState}
    (h : handleSysEx bytes offset time active acc = .ok s₂) :
    s₂.time = time ∧ s₂.active = active ∧ s₂.acc = acc := by
  cases hlen : readVariableLength bytes offset with
  | error e => simp [handleSysEx, hlen] at h
  | ok p =>
  obtain ⟨sysexLength, sysexBytesRead⟩ := p
  simp only [handleSysEx, hlen] at h
  injection h with h₂
  subst h₂
  exact ⟨rfl, rfl, rfl⟩

theorem dispatchSpec_id {tpb : Nat} {time : Int} {active : List (Nat × ActiveNote)}
    {acc : ParseAcc} (o : Int) :
    (⟨o, time, active, acc⟩ : EvState).time = time ∧
    ∃ new newTCs,
      (⟨o, time, active, acc⟩ : EvState).acc.notes = acc.notes ++ new ∧
      (⟨o, time, active, acc⟩ : EvState).acc.maxTime = new.foldl maxEnd acc.maxTime ∧
      (⟨o, time, active, acc⟩ : EvState).acc.tempoChanges = acc.tempoChanges ++ newTCs ∧
      (∀ tc ∈ newTCs, ∃ (t : ℤ) (us : ℕ),
        tc.time = ticksToSeconds t tpb us ∧ tc.bpm = (60000000 : ℚ) / (us : ℚ)) ∧
      (newTCs = [] → (⟨o, time, active, acc⟩ : EvState).acc.currentTempo = acc.currentTempo) ∧
      (newTCs = [] → ActiveInv tpb acc.currentTempo time active →
        (∀ x ∈ new, 0 ≤ x.duration) ∧
        ActiveInv tpb acc.currentTempo time (⟨o, time, active, acc⟩ : EvState).active) :=
  ⟨rfl, [], [], (List.append_nil _).symm, rfl, (List.append_nil _).symm, by simp,
    fun _ => rfl, fun _ hInv => ⟨by simp, hInv⟩⟩

theorem parseEventDispatch_spec {bytes : List Nat} {tpb eventType : Nat} {offset time : Int}
    {active : List (Nat × ActiveNote)} {acc : ParseAcc} {s₂ : EvState}
    (h : parseEventDispatch bytes tpb eventType offset time active acc = .ok s₂) :
    s₂.time = time ∧
    ∃ new newTCs,
      s₂.acc.notes = acc.notes ++ new ∧
      s₂.acc.maxTime = new.foldl maxEnd acc.maxTime ∧
      s₂.acc.tempoChanges = acc.tempoChanges ++ newTCs ∧
      (∀ tc ∈ newTCs, ∃ (t : ℤ) (us : ℕ),
        tc.time = ticksToSeconds t tpb us ∧ tc.bpm = (60000000 : ℚ) / (us : ℚ)) ∧
      (newTCs = [] → s₂.acc.currentTempo = acc.currentTempo) ∧
      (newTCs = [] → ActiveInv tpb acc.currentTempo time active →
        (∀ x ∈ new, 0 ≤ x.duration) ∧ ActiveInv tpb acc.currentTempo time s₂.active) := by
  unfold parseEventDispatch at h
  split_ifs at h with h1 h2 h3 h4 h5 h6 h7 h8 h9
  · -- Note On
    obtain ⟨ht, htc, htempo, new, hn, hm, hinv⟩ := handleNoteOn_spec h
    exact ⟨ht, new, [], hn, hm, by rw [htc, List.append_nil], by simp,
      fun _ => htempo, fun _ => hinv⟩
  · -- Note Off
    obtain ⟨ht, htc, htempo, new, hn, hm, hinv⟩ := handleNoteOff_spec h
    exact ⟨ht, new, [], hn, hm, by rw [htc, List.append_nil], by simp,
      fun _ => htempo, fun _ => hinv⟩
  · injection h with h₂; subst h₂; exact dispatchSpec_id _
  · injection h with h₂; subst h₂; exact dispatchSpec_id _
  · injection h with h₂; subst h₂; exact dispatchSpec_id _
  · injection h with h₂; subst h₂; exact dispatchSpec_id _
  · injection h with h₂; subst h₂; exact dispatchSpec_id _
  · -- Meta
    obtain ⟨ht, hact, hn, hm, newTCs, htc, hprops, htempo⟩ := handleMeta_spec h
    refine ⟨ht, [], newTCs, by rw [hn, List.append_nil], by rw [hm]; rfl, htc, hprops,
      htempo, fun he hInv => ⟨by simp, ?_⟩⟩
    rw [hact]
    exact hInv
  · -- SysEx
    obtain ⟨ht, hact, hacc⟩ := handleSysEx_spec h
    refine ⟨ht, [], [], by rw [hacc, List.append_nil], by rw [hacc]; rfl,
      by rw [hacc, List.append_nil], by simp, fun _ => by rw [hacc], fun _ hInv => ⟨by simp, ?_⟩⟩
    rw [hact]
    exact hInv
  · injection h with h₂; subst h₂; exact dispatchSpec_id _

theorem vlqValueAt_of_ok {bytes : List Nat} {off : Int} {v : Int} {n : Nat}
    (h : readVariableLength bytes off = .ok (v, n)) : vlqValueAt bytes off = v := by
  unfold vlqValueAt
  rw [h]

theorem ActiveInv.mono {tpb tempo : Nat} {t t₁ : Int} {a : List (Nat × ActiveNote)}
    (h : t ≤ t₁) (hI : ActiveInv tpb tempo t a) : ActiveInv tpb tempo t₁ a :=
  fun pe hpe =>
    match hI pe hpe with
    | ⟨u, hu, hs⟩ => ⟨u, le_trans hu h, hs⟩

theorem parseEventStep_spec {bytes : List Nat} {tpb : Nat} {s s₁ : EvState}
    (h : parseEventStep bytes tpb s = .ok s₁) :
    ∃ new newTCs,
      s₁.acc.notes = s.acc.notes ++ new ∧
      s₁.acc.maxTime = new.foldl maxEnd s.acc.maxTime ∧
      s₁.acc.tempoChanges = s.acc.tempoChanges ++ newTCs ∧
      (∀ tc ∈ newTCs, ∃ (t : ℤ) (us : ℕ),
        tc.time = ticksToSeconds t tpb us ∧ tc.bpm = (60000000 : ℚ) / (us : ℚ)) ∧
      (newTCs = [] → s₁.acc.currentTempo = s.acc.currentTempo) ∧
      (NonnegVLQs bytes →
        s.time ≤ s₁.time ∧
        (newTCs = [] → ActiveInv tpb s.acc.currentTempo s.time s.active →
          (∀ x ∈ new, 0 ≤ x.duration) ∧
          ActiveInv tpb s.acc.currentTempo s₁.time s₁.active)) := by
  cases hdelta : readVariableLength bytes s.offset with
  | error e => simp [parseEventStep, hdelta] at h
  | ok p =>
  obtain ⟨deltaTime, bytesRead⟩ := p
  have hdnn : NonnegVLQs bytes → 0 ≤ deltaTime := fun hN => by
    have := hN s.offset
    rwa [vlqValueAt_of_ok hdelta] at this
  cases hevt : getUint8 bytes (s.offset + (bytesRead : Int)) with
  | error e => simp [parseEventStep, hdelta, hevt] at h
  | ok eventType =>
  by_cases hb : eventType &&& 0x80 = 0
  · cases hevt₁ : getUint8 bytes (s.offset + (bytesRead : Int) - 1) with
    | error e => simp [parseEventStep, hdelta, hevt, if_pos hb, hevt₁] at h
    | ok eventType₁ =>
      simp only [parseEventStep, hdelta, hevt, if_pos hb, hevt₁] at h
      obtain ⟨ht, new, newTCs, hn, hm, htc, hprops, htempo, hinv⟩ := parseEventDispatch_spec h
      refine ⟨new, newTCs, hn, hm, htc, hprops, htempo, fun hN => ⟨?_, fun he hI => ?_⟩⟩
      · rw [ht]
        exact le_add_of_nonneg_right (hdnn hN)
      · have h₁ := hinv he (hI.mono (le_add_of_nonneg_right (hdnn hN)))
        rw [ht]
        exact h₁
  · simp only [parseEventStep, hdelta, hevt, if_neg hb] at h
    obtain ⟨ht, new, newTCs, hn, hm, htc, hprops, htempo, hinv⟩ := parseEventDispatch_spec h
    refine ⟨new, newTCs, hn, hm, htc, hprops, htempo, fun hN => ⟨?_, fun he hI => ?_⟩⟩
    · rw [ht]
      exact le_add_of_nonneg_right (hdnn hN)
    · have h₁ := hinv he (hI.mono (le_add_of_nonneg_right (hdnn hN)))
      rw [ht]
      exact h₁

theorem parseEvents_spec {bytes : List Nat} {tpb : Nat} {trackEnd : Int} :
    ∀ (fuel : Nat) (s sF : EvState),
      parseEvents bytes tpb trackEnd fuel s = .ok sF →
      ∃ new newTCs,
        sF.acc.notes = s.acc.notes ++ new ∧
        sF.acc.maxTime = new.foldl maxEnd s.acc.maxTime ∧
        sF.acc.tempoChanges = s.acc.tempoChanges ++ newTCs ∧
        (∀ tc ∈ newTCs, ∃ (t : ℤ) (us : ℕ),
          tc.time = ticksToSeconds t tpb us ∧ tc.bpm = (60000000 : ℚ) / (us : ℚ)) ∧
        (newTCs = [] → sF.acc.currentTempo = s.acc.currentTempo) ∧
        (NonnegVLQs bytes → newTCs = [] →
          ActiveInv tpb s.acc.currentTempo s.time s.active →
          ∀ x ∈ new, 0 ≤ x.duration)
  | 0, s, sF => by intro h; simp [parseEvents] at h
  | fuel + 1, s, sF => by
    intro h
    unfold parseEvents at h
    by_cases hlt : s.offset < trackEnd
    · rw [if_pos hlt] at h
      cases hstep : parseEventStep bytes tpb s with
      | error e => rw [hstep] at h; exact absurd h (by simp)
      | ok s₁ =>
        rw [hstep] at h
        obtain ⟨new₁, tcs₁, hn₁, hm₁, htc₁, hp₁, htm₁, hnn₁⟩ := parseEventStep_spec hstep
        obtain ⟨new₂, tcs₂, hn₂, hm₂, htc₂, hp₂, htm₂, hnn₂⟩ := parseEvents_spec fuel s₁ sF h
        refine ⟨new₁ ++ new₂, tcs₁ ++ tcs₂, ?_, ?_, ?_, ?_, ?_, ?_⟩
        · rw [hn₂, hn₁, List.append_assoc]
        · rw [hm₂, hm₁, List.foldl_append]
        · rw [htc₂, htc₁, List.append_assoc]
        · intro tc htc
          rcases List.mem_append.mp htc with htc | htc
          · exact hp₁ tc htc
          · exact hp₂ tc htc
        · intro he
          rcases List.append_eq_nil.mp he with ⟨he₁, he₂⟩
          rw [htm₂ he₂, htm₁ he₁]
        · intro hN he hI
          rcases List.append_eq_nil.mp he with ⟨he₁, he₂⟩
          obtain ⟨hle, hrest⟩ := hnn₁ hN
          obtain ⟨hd₁, hI₁⟩ := hrest he₁ hI
          have hI₂ : ActiveInv tpb s₁.acc.currentTempo s₁.time s₁.active := by
            rw [htm₁ he₁]
            exact hI₁
          have hd₂ := hnn₂ hN he₂ hI₂
          intro x hx
          rcases List.mem_append.mp hx with hx | hx
          · exact hd₁ x hx
          · exact hd₂ x hx
    · rw [if_neg hlt] at h
      injection h with h₂
      subst h₂
      exact ⟨[], [], (List.append_nil _).symm, rfl, (List.append_nil _).symm, by simp,
        fun _ => rfl, fun _ _ _ x hx => absurd hx (List.not_mem_nil x)⟩

theorem parseTracks_spec {bytes : List Nat} {tpb : Nat} :
    ∀ (n : Nat) (offset : Int) (acc : ParseAcc) (offF : Int) (accF : ParseAcc),
      parseTracks bytes tpb n offset acc = .ok (offF, accF) →
      ∃ new newTCs,
        accF.notes = acc.notes ++ new ∧
        accF.maxTime = new.foldl maxEnd acc.maxTime ∧
        accF.tempoChanges = acc.tempoChanges ++ newTCs ∧
        (∀ tc ∈ newTCs, ∃ (t : ℤ) (us : ℕ),
          tc.time = ticksToSeconds t tpb us ∧ tc.bpm = (60000000 : ℚ) / (us : ℚ)) ∧
        (newTCs = [] → accF.currentTempo = acc.currentTempo) ∧
        (NonnegVLQs bytes → newTCs = [] → ∀ x ∈ new, 0 ≤ x.duration)
  | 0, offset, acc, offF, accF => by
    intro h
    unfold parseTracks at h
    injection h with h₂
    injection h₂ with h₃ h₄
    subst h₄
    exact ⟨[], [], (List.append_nil _).symm, rfl, (List.append_nil _).symm, by simp,
      fun _ => rfl, fun _ _ x hx => absurd hx (List.not_mem_nil x)⟩
  | n + 1, offset, acc, offF, accF => by
    intro h
    unfold parseTracks at h
    cases htag : readString bytes offset 4 with
    | error e => simp [htag] at h
    | ok trackChunkId =>
      simp only [htag] at h
      by_cases hmt : trackChunkId = mtrkTag
      · rw [if_pos hmt] at h
        cases hlen : getUint32 bytes (offset + 4) with
        | error e => simp [hlen] at h
        | ok trackLength =>
          simp only [hlen] at h
          cases hev : parseEvents bytes tpb (offset + 8 + (trackLength : Int))
              (bytes.length + 1) ⟨offset + 8, 0, [], acc⟩ with
          | error e => simp [hev] at h
          | ok s₀ =>
            simp only [hev] at h
            obtain ⟨new₁, tcs₁, hn₁, hm₁, htc₁, hp₁, htm₁, hnn₁⟩ :=
              @parseEvents_spec bytes tpb _ _ _ _ hev
            obtain ⟨new₂, tcs₂, hn₂, hm₂, htc₂, hp₂, htm₂, hnn₂⟩ :=
              parseTracks_spec n s₀.offset s₀.acc offF accF h
            refine ⟨new₁ ++ new₂, tcs₁ ++ tcs₂, ?_, ?_, ?_, ?_, ?_, ?_⟩
            · rw [hn₂, hn₁, List.append_assoc]
            · rw [hm₂, hm₁, List.foldl_append]
            · rw [htc₂, htc₁, List.append_assoc]
            · intro tc htc
              rcases List.mem_append.mp htc with htc | htc
              · exact hp₁ tc htc
              · exact hp₂ tc htc
            · intro he
              rcases List.append_eq_nil.mp he with ⟨he₁, he₂⟩
              rw [htm₂ he₂, htm₁ he₁]
            · intro hN he
              rcases List.append_eq_nil.mp he with ⟨he₁, he₂⟩
              have hd₁ := hnn₁ hN he₁ (fun pe hpe => absurd hpe (List.not_mem_nil pe))
              have hd₂ := hnn₂ hN he₂
              intro x hx
              rcases List.mem_append.mp hx with hx | hx
              · exact hd₁ x hx
              · exact hd₂ x hx
      · rw [if_neg hmt] at h
        exact absurd h (by simp)

theorem parseMidiFile_ok_elim {bytes : List Nat} {d : MidiData}
    (h : parseMidiFile bytes = .ok d) :
    ∃ (trackCount division : Nat) (offF : Int) (accF : ParseAcc),
      getUint16 bytes 10 = .ok trackCount ∧
      getUint16 bytes 12 = .ok division ∧
      parseTracks bytes (division &&& 0x7fff) trackCount 14 ⟨[], 0, [], 500000⟩ =
        .ok (offF, accF) ∧
      d = ⟨accF.notes.insertionSort noteLE, accF.maxTime, accF.tempoChanges⟩ := by
  cases h₀ : readString bytes 0 4 with
  | error e => simp [parseMidiFile, h₀] at h
  | ok headerChunkId =>
  by_cases hh : headerChunkId = mthdTag
  · cases h₁ : getUint32 bytes 4 with
    | error e => simp [parseMidiFile, h₀, hh, h₁] at h
    | ok hl =>
    cases h₂ : getUint16 bytes 8 with
    | error e => simp [parseMidiFile, h₀, hh, h₁, h₂] at h
    | ok fmt =>
    cases h₃ : getUint16 bytes 10 with
    | error e => simp [parseMidiFile, h₀, hh, h₁, h₂, h₃] at h
    | ok trackCount =>
    cases h₄ : getUint16 bytes 12 with
    | error e => simp [parseMidiFile, h₀, hh, h₁, h₂, h₃, h₄] at h
    | ok division =>
    cases h₅ : parseTracks bytes (division &&& 0x7fff) trackCount 14 ⟨[], 0, [], 500000⟩ with
    | error e => simp [parseMidiFile, h₀, hh, h₁, h₂, h₃, h₄, h₅] at h
    | ok p =>
      obtain ⟨offF, accF⟩ := p
      simp only [parseMidiFile, h₀, if_pos hh, h₁, h₂, h₃, h₄, h₅] at h
      injection h with h₆
      exact ⟨trackCount, division, offF, accF, rfl, rfl, h₅, h₆.symm⟩
  · simp [parseMidiFile, h₀, hh] at h

theorem vlqValueAt_oob {bytes : List Nat} {off : Int}
    (h : off < 0 ∨ (bytes.length : Int) ≤ off) : vlqValueAt bytes off = 0 := by
  have hg : getUint8 bytes (off + ((0 : Nat) : Int)) = .error .rangeError := by
    rcases h with h | h
    · unfold getUint8
      rw [if_neg (by omega)]
    · unfold getUint8
      rw [if_pos (by omega)]
      have hnone : bytes.get? (off + ((0 : Nat) : Int)).toNat = none := by
        rw [List.get?_eq_none]
        omega
      rw [hnone]
  unfold vlqValueAt readVariableLength readVariableLengthAux
  rw [hg]

theorem nonnegVLQs_of_check {bytes : List Nat}
    (h : ((List.range bytes.length).all
      fun off => decide (0 ≤ vlqValueAt bytes (off : Int))) = true) :
    NonnegVLQs bytes := by
  intro off
  by_cases h0 : off < 0 ∨ (bytes.length : Int) ≤ off
  · rw [vlqValueAt_oob h0]
  · push_neg at h0
    obtain ⟨h1, h2⟩ := h0
    have hmem : off.toNat ∈ List.range bytes.length := List.mem_range.mpr (by omega)
    have h3 := of_decide_eq_true (List.all_eq_true.mp h _ hmem)
    have h4 : ((off.toNat : Nat) : Int) = off := by omega
    rwa [h4] at h3

/-- C3 amended. Every `TempoChange` the decoder appends has
`bpm = 60000000 / us` and `time = ticksToSeconds t ticksPerBeat us` for one
and the same microseconds-per-quarter value `us` — i.e. the time field is
converted with the *new* tempo the event just installed, not the old one. -/
theorem c3_amended_tempo_fields {bytes : List Nat} {d : MidiData} {tpb : Nat}
    (hok : parseMidiFile bytes = .ok d) (htpb : headerTicksPerBeat bytes = .ok tpb) :
    ∀ tc ∈ d.tempoChanges, ∃ (t : ℤ) (us : ℕ),
      tc.time = ticksToSeconds t tpb us ∧ tc.bpm = (60000000 : ℚ) / (us : ℚ) := by
  obtain ⟨tC, dv, offF, accF, h10, h12, hpt, hd⟩ := parseMidiFile_ok_elim hok
  obtain ⟨new, newTCs, hn, hm, htcs, hp, htm, hdur⟩ := parseTracks_spec _ _ _ _ _ hpt
  have htpb₂ : tpb = dv &&& 0x7fff := by
    unfold headerTicksPerBeat at htpb
    rw [h12] at htpb
    injection htpb with h₁
    exact h₁.symm
  subst hd
  intro tc htc
  have htc₂ : tc ∈ accF.tempoChanges := htc
  rw [htcs, List.nil_append] at htc₂
  obtain ⟨t, us, h₁, h₂⟩ := hp tc htc₂
  exact ⟨t, us, by rw [htpb₂]; exact h₁, h₂⟩

/-- C4 amended. If every delta-time VLQ of the input decodes to a
non-negative value (no 32-bit overflow) and the decode contains no effective
Set Tempo event (`tempoChanges = []`, so no tempo change can fall between a
note's Note-On and Note-Off), then every returned note has `duration ≥ 0`. -/
theorem c4_amended_duration_nonneg {bytes : List Nat} {d : MidiData}
    (hN : NonnegVLQs bytes) (hok : parseMidiFile bytes = .ok d)
    (htc : d.tempoChanges = []) : ∀ x ∈ d.notes, 0 ≤ x.duration := by
  obtain ⟨tC, dv, offF, accF, h10, h12, hpt, hd⟩ := parseMidiFile_ok_elim hok
  obtain ⟨new, newTCs, hn, hm, htcs, hp, htm, hdur⟩ := parseTracks_spec _ _ _ _ _ hpt
  subst hd
  have htc₂ : accF.tempoChanges = [] := htc
  rw [htcs, List.nil_append] at htc₂
  intro x hx
  have hx₂ : x ∈ accF.notes.insertionSort noteLE := hx
  have hx₃ : x ∈ accF.notes := (List.perm_insertionSort noteLE accF.notes).mem_iff.mp hx₂
  rw [hn, List.nil_append] at hx₃
  exact hdur hN htc₂ x hx₃

theorem filter_orderedInsert (q : ℚ) (a : MidiNote) (l : List MidiNote) :
    (l.orderedInsert noteLE a).filter (fun x => decide (x.startTime = q)) =
      if a.startTime = q then a :: l.filter (fun x => decide (x.startTime = q))
      else l.filter (fun x => decide (x.startTime = q)) := by
  induction l with
  | nil =>
    by_cases hpa : a.startTime = q <;> simp [List.orderedInsert, hpa]
  | cons b t ih =>
    show ((if noteLE a b then a :: b :: t else b :: t.orderedInsert noteLE a).filter
      (fun x => decide (x.startTime = q))) = _
    by_cases hle : noteLE a b
    · rw [if_pos hle]
      by_cases hpa : a.startTime = q <;> simp [List.filter_cons, hpa]
    · rw [if_neg hle]
      have hlt : b.startTime < a.startTime := lt_of_not_le hle
      by_cases hpa : a.startTime = q
      · have hpb : ¬ b.startTime = q := by rw [← hpa]; exact ne_of_lt hlt
        simp [List.filter_cons, hpb, ih, hpa]
      · simp [List.filter_cons, ih, hpa]

theorem filter_insertionSort (q : ℚ) (l : List MidiNote) :
    (l.insertionSort noteLE).filter (fun x => decide (x.startTime = q)) =
      l.filter (fun x => decide (x.startTime = q)) := by
  induction l with
  | nil => rfl
  | cons a t ih =>
    show ((t.insertionSort noteLE).orderedInsert noteLE a).filter _ = _
    rw [filter_orderedInsert]
    by_cases hpa : a.startTime = q <;> simp [List.filter_cons, hpa, ih]

/-- C7 amended. Every successful decode returns `notes` sorted ascending by
`startTime` and a `duration` field equal to the `Math.max` fold of
`startTime + duration` started at 0 — the plain maximum over all notes
whenever all note end times are non-negative, but 0 (not negative) on the
overflow inputs of the counterexample. Moreover `notes` equals the stable
insertion sort of the decoder's ACTUAL emission-order list — the `notes`
field of the accumulator the very `parseTracks` run of this decode returned,
not an arbitrary list — so equal-`startTime` notes keep their relative
emission order: filtering either list on any fixed start time gives the
same subsequence. -/
theorem c7_amended_sorted_stable_duration {bytes : List Nat} {d : MidiData}
    (hok : parseMidiFile bytes = .ok d) :
    d.notes.Sorted noteLE ∧
    d.duration = d.notes.foldl maxEnd 0 ∧
    ∃ (trackCount division : Nat) (offF : Int) (accF : ParseAcc),
      getUint16 bytes 10 = .ok trackCount ∧
      getUint16 bytes 12 = .ok division ∧
      parseTracks bytes (division &&& 0x7fff) trackCount 14 ⟨[], 0, [], 500000⟩ =
        .ok (offF, accF) ∧
      d.notes = accF.notes.insertionSort noteLE ∧
      ∀ q : ℚ, d.notes.filter (fun x => decide (x.startTime = q)) =
        accF.notes.filter (fun x => decide (x.startTime = q)) := by
  obtain ⟨tC, dv, offF, accF, h10, h12, hpt, hd⟩ := parseMidiFile_ok_elim hok
  obtain ⟨new, newTCs, hn, hm, htcs, hp, htm, hdur⟩ := parseTracks_spec _ _ _ _ _ hpt
  subst hd
  refine ⟨List.sorted_insertionSort noteLE _, ?_, tC, dv, offF, accF, h10, h12, hpt, rfl,
    fun q => filter_insertionSort q _⟩
  show accF.maxTime = (accF.notes.insertionSort noteLE).foldl maxEnd 0
  have h₂ : accF.notes = new := by rw [hn, List.nil_append]
  have h₃ : accF.maxTime = new.foldl maxEnd 0 := hm
  rw [h₃, (List.perm_insertionSort noteLE accF.notes).foldl_eq 0, h₂]

theorem readString_four {b0 b1 b2 b3 : Nat} {rest : List Nat} :
    readString (b0 :: b1 :: b2 :: b3 :: rest) 0 4 =
      .ok [b0 % 256, b1 % 256, b2 % 256, b3 % 256] := rfl

/-- C6. For every buffer of at least four bytes whose first four bytes are
not the tag MThd, the decoder fails with the Missing-MThd-header error and
returns no note list at all. -/
theorem c6_invalid_header_rejected {bytes : List Nat} (hlen : 4 ≤ bytes.length)
    (hne : readString bytes 0 4 ≠ .ok mthdTag) :
    parseMidiFile bytes = .error .invalidHeader ∧ ∀ d, parseMidiFile bytes ≠ .ok d := by
  rcases bytes with _ | ⟨b0, _ | ⟨b1, _ | ⟨b2, _ | ⟨b3, rest⟩⟩⟩⟩ <;>
    simp only [List.length] at hlen
  · omega
  · omega
  · omega
  · omega
  have hne₂ : ¬ ([b0 % 256, b1 % 256, b2 % 256, b3 % 256] = mthdTag) := by
    intro he
    exact hne (by rw [readString_four, he])
  have hmain : parseMidiFile (b0 :: b1 :: b2 :: b3 :: rest) = .error .invalidHeader := by
    unfold parseMidiFile
    simp only [readString_four]
    rw [if_neg hne₂]
  exact ⟨hmain, fun d hd => by rw [hmain] at hd; exact absurd hd (by simp)⟩

theorem tickScan_dispatched {newTime : ℚ} {cp : List Nat} :
    ∀ (l : List (Nat × MidiNote)) (na tt sch disp : List Nat),
      ∃ extra, (tickScan newTime cp l na tt sch disp).2.2.2 = disp ++ extra ∧
        ∀ i ∈ extra, ∃ n, (i, n) ∈ l ∧ n.startTime ≤ newTime ∧
          newTime < n.startTime + n.duration
  | [], na, tt, sch, disp => ⟨[], by simp [tickScan], by simp⟩
  | (j, note) :: rest, na, tt, sch, disp => by
    unfold tickScan
    by_cases hact : note.startTime ≤ newTime ∧ newTime < note.startTime + note.duration
    · rw [if_pos hact]
      by_cases htr : note.pitch ∉ cp ∧ j ∉ sch
      · rw [if_pos htr]
        obtain ⟨extra, he, hprop⟩ := tickScan_dispatched rest
          (insertPitch na note.pitch) (insertPitch tt note.pitch) (j :: sch) (disp ++ [j])
        refine ⟨j :: extra, by rw [he, List.append_assoc]; rfl, ?_⟩
        intro i hi
        rcases List.mem_cons.mp hi with hi | hi
        · exact ⟨note, by rw [hi]; exact List.mem_cons_self _ _, hact.1, hact.2⟩
        · obtain ⟨n, hn, h₁, h₂⟩ := hprop i hi
          exact ⟨n, List.mem_cons_of_mem _ hn, h₁, h₂⟩
      · rw [if_neg htr]
        obtain ⟨extra, he, hprop⟩ := tickScan_dispatched rest
          (insertPitch na note.pitch) tt sch disp
        refine ⟨extra, he, ?_⟩
        intro i hi
        obtain ⟨n, hn, h₁, h₂⟩ := hprop i hi
        exact ⟨n, List.mem_cons_of_mem _ hn, h₁, h₂⟩
    · rw [if_neg hact]
      obtain ⟨extra, he, hprop⟩ := tickScan_dispatched rest na tt sch disp
      refine ⟨extra, he, ?_⟩
      intro i hi
      obtain ⟨n, hn, h₁, h₂⟩ := hprop i hi
      exact ⟨n, List.mem_cons_of_mem _ hn, h₁, h₂⟩

theorem tickScan_hits {newTime : ℚ} {cp : List Nat} :
    ∀ (l : List (Nat × MidiNote)) (na tt sch disp : List Nat) (i : Nat) (n : MidiNote),
      (i, n) ∈ l → (l.map Prod.fst).Nodup →
      n.startTime ≤ newTime → newTime < n.startTime + n.duration →
      n.pitch ∉ cp → i ∉ sch →
      i ∈ (tickScan newTime cp l na tt sch disp).2.2.2
  | [], na, tt, sch, disp, i, n => by
    intro hmem
    exact absurd hmem (List.not_mem_nil _)
  | (j, note) :: rest, na, tt, sch, disp, i, n => by
    intro hmem hnd h₁ h₂ hcp hsch
    unfold tickScan
    rcases List.mem_cons.mp hmem with heq | hmem₂
    · obtain ⟨hj, hn⟩ := Prod.mk.inj heq
      subst hj
      subst hn
      rw [if_pos ⟨h₁, h₂⟩, if_pos ⟨hcp, hsch⟩]
      obtain ⟨extra, he, _⟩ := tickScan_dispatched rest
        (insertPitch na n.pitch) (insertPitch tt n.pitch) (i :: sch) (disp ++ [i])
      rw [he]
      exact List.mem_append_left _ (List.mem_append_right _ (List.mem_singleton.mpr rfl))
    · have hji : j ≠ i := by
        intro hji
        subst hji
        have : j ∈ rest.map Prod.fst := List.mem_map.mpr ⟨(j, n), hmem₂, rfl⟩
        simp only [List.map_cons, List.nodup_cons] at hnd
        exact hnd.1 this
      have hnd₂ : (rest.map Prod.fst).Nodup := by
        simp only [List.map_cons, List.nodup_cons] at hnd
        exact hnd.2
      by_cases hact : note.startTime ≤ newTime ∧ newTime < note.startTime + note.duration
      · rw [if_pos hact]
        by_cases htr : note.pitch ∉ cp ∧ j ∉ sch
        · rw [if_pos htr]
          refine tickScan_hits rest _ _ _ _ i n hmem₂ hnd₂ h₁ h₂ hcp ?_
          intro hi
          rcases List.mem_cons.mp hi with hi | hi
          · exact hji hi.symm
          · exact hsch hi
        · rw [if_neg htr]
          exact tickScan_hits rest _ _ _ _ i n hmem₂ hnd₂ h₁ h₂ hcp hsch
      · rw [if_neg hact]
        exact tickScan_hits rest _ _ _ _ i n hmem₂ hnd₂ h₁ h₂ hcp hsch

theorem tick_snd (notes : List MidiNote) (totalDuration dt : ℚ) (s : PlayState) :
    (tick notes totalDuration dt s).2 =
      (tickScan (s.currentTime + dt) s.currentlyPlaying notes.enum [] [] s.scheduled []).2.2.2 := by
  unfold tick
  rcases htk : tickScan (s.currentTime + dt) s.currentlyPlaying notes.enum [] [] s.scheduled []
    with ⟨na, tt, sch, disp⟩
  simp only [htk]
  split <;> rfl

theorem tick_currentTime_ge {notes : List MidiNote} {totalDuration dt : ℚ} {s : PlayState}
    (q : ℚ) (hq : q ≤ s.currentTime) (h0 : 0 ≤ dt) (hqd : q ≤ totalDuration) :
    q ≤ (tick notes totalDuration dt s).1.currentTime := by
  unfold tick
  rcases htk : tickScan (s.currentTime + dt) s.currentlyPlaying notes.enum [] [] s.scheduled []
    with ⟨na, tt, sch, disp⟩
  simp only [htk]
  split
  · exact hqd
  · calc q ≤ s.currentTime := hq
      _ ≤ s.currentTime + dt := le_add_of_nonneg_right h0

theorem tick_dispatched_sound {notes : List MidiNote} {totalDuration dt : ℚ} {s : PlayState}
    {i : Nat} (h : i ∈ (tick notes totalDuration dt s).2) :
    ∃ n, notes.get? i = some n ∧ n.startTime ≤ s.currentTime + dt ∧
      s.currentTime + dt < n.startTime + n.duration := by
  rw [tick_snd] at h
  obtain ⟨extra, he, hprop⟩ := @tickScan_dispatched (s.currentTime + dt)
    s.currentlyPlaying notes.enum [] [] s.scheduled []
  rw [he, List.nil_append] at h
  obtain ⟨n, hn, h₁, h₂⟩ := hprop i h
  refine ⟨n, ?_, h₁, h₂⟩
  rw [List.get?_eq_getElem?]
  exact List.mk_mem_enum_iff_getElem?.mp hn

theorem runTicks_no_stale {notes : List MidiNote} {totalDuration : ℚ} {i : Nat} {n : MidiNote}
    (hget : notes.get? i = some n) (hend : ∀ m ∈ notes, m.startTime + m.duration ≤ totalDuration) :
    ∀ (dts : List ℚ) (s : PlayState), (∀ dt ∈ dts, 0 ≤ dt) →
      n.startTime + n.duration ≤ s.currentTime →
      i ∉ (runTicks notes totalDuration dts s).2
  | [], s => by
    intro _ _ h
    simp [runTicks] at h
  | dt :: dts, s => by
    intro hdts hcur hi
    unfold runTicks at hi
    rcases htick : tick notes totalDuration dt s with ⟨s₁, disp₁⟩
    simp only [htick] at hi
    rcases hrun : runTicks notes totalDuration dts s₁ with ⟨s₂, disp₂⟩
    simp only [hrun] at hi
    have hdt : (0 : ℚ) ≤ dt := hdts dt (List.mem_cons_self _ _)
    rcases List.mem_append.mp hi with hi | hi
    · have hi₂ : i ∈ (tick notes totalDuration dt s).2 := by rw [htick]; exact hi
      obtain ⟨m, hm, h₁, h₂⟩ := tick_dispatched_sound hi₂
      rw [hget] at hm
      injection hm with hm
      subst hm
      have : s.currentTime + dt < s.currentTime := lt_of_lt_of_le h₂ hcur
      linarith
    · have hs₁ : n.startTime + n.duration ≤ s₁.currentTime := by
        have := @tick_currentTime_ge notes totalDuration dt s
          (n.startTime + n.duration) hcur hdt
          (hend n (List.get?_mem hget))
        rw [htick] at this
        exact this
      have := runTicks_no_stale hget hend dts s₁
        (fun d hd => hdts d (List.mem_cons_of_mem _ hd)) hs₁
      rw [hrun] at this
      exact this hi

/-- C8 amended. After `handleSeek` (which clamps the play-head into
`[0, totalDuration]` and clears the scheduled set), (1) no sequence of
forward ticks ever dispatches a note whose interval ends before the seek
target, and (2) a tick whose new play-head lies inside a note's interval
dispatches that note — provided the note's pitch is not still marked in the
closure-local `currentlyPlayingNotes` set, which `handleSeek` does not
clear (the counterexample shows a stale entry blocking the dispatch). -/
theorem c8_amended_seek_then_tick :
    (∀ (notes : List MidiNote) (totalDuration T : ℚ) (s : PlayState) (dts : List ℚ)
      (i : Nat) (n : MidiNote),
      (∀ m ∈ notes, m.startTime + m.duration ≤ totalDuration) →
      0 ≤ totalDuration →
      (∀ dt ∈ dts, 0 ≤ dt) →
      notes.get? i = some n →
      n.startTime + n.duration < T →
      i ∉ (runTicks notes totalDuration dts (handleSeek totalDuration T s)).2) ∧
    (∀ (notes : List MidiNote) (totalDuration T dt : ℚ) (s : PlayState)
      (i : Nat) (n : MidiNote),
      notes.get? i = some n →
      n.pitch ∉ s.currentlyPlaying →
      n.startTime ≤ (handleSeek totalDuration T s).currentTime + dt →
      (handleSeek totalDuration T s).currentTime + dt < n.startTime + n.duration →
      i ∈ (tick notes totalDuration dt (handleSeek totalDuration T s)).2) := by
  constructor
  · intro notes totalDuration T s dts i n hend h0 hdts hget hT
    have hcur : n.startTime + n.duration ≤ (handleSeek totalDuration T s).currentTime := by
      show n.startTime + n.duration ≤ max 0 (min T totalDuration)
      have h₁ : n.startTime + n.duration ≤ min T totalDuration :=
        le_min (le_of_lt hT) (hend n (List.get?_mem hget))
      exact le_trans h₁ (le_max_right _ _)
    exact runTicks_no_stale hget hend dts (handleSeek totalDuration T s) hdts hcur
  · intro notes totalDuration T dt s i n hget hcp h₁ h₂
    rw [tick_snd]
    refine tickScan_hits notes.enum [] [] (handleSeek totalDuration T s).scheduled [] i n
      ?_ (List.nodup_enum_map_fst notes) h₁ h₂ hcp ?_
    · exact List.mk_mem_enum_iff_getElem?.mpr (by rw [← List.get?_eq_getElem?]; exact hget)
    · show i ∉ ([] : List Nat)
      exact List.not_mem_nil i

/-- C9. A key event rated `r` at combo `c` adds exactly
`floor(base(r) * (1 + floor(c / 10) * 0.1))` to the score, where
`base(perfect) = 100`, `base(good) = 50`, `base(miss) = 0` and `c` is the
combo value before the update; the combo becomes 0 on a miss and `c + 1`
otherwise. -/
theorem c9_score_combo_update :
    ∀ (rating : HitRating) (prev : GameScore),
      (applyNoteHit rating prev).score = prev.score +
        ⌊(if rating = HitRating.perfect then (100 : ℚ)
          else if rating = HitRating.good then 50 else 0) *
          (1 + ((prev.combo / 10 : Nat) : ℚ) * (1 / 10))⌋ ∧
      (applyNoteHit rating prev).combo =
        (if rating = HitRating.miss then 0 else prev.combo + 1) := by
  intro rating prev
  cases rating <;> simp [applyNoteHit, calculateNoteScore]

/-- C8 counterexample. Play a 10-second note from time 0 (it is dispatched
and its pitch enters the closure-local currently-playing set), seek to 5,
and tick by 1/10: the post-seek play-head 51/10 lies inside the note's
interval `[0, 10)`, yet nothing is dispatched, because the stale
currently-playing entry for pitch 60 blocks the trigger. -/
theorem c8_stale_pitch_blocks_retrigger :
    (tick [⟨60, 0, 10, 100, 0⟩] 10 2 ⟨0, true, [], []⟩).2 = [0] ∧
    (tick [⟨60, 0, 10, 100, 0⟩] 10 (1/10)
      (handleSeek 10 5 (tick [⟨60, 0, 10, 100, 0⟩] 10 2 ⟨0, true, [], []⟩).1)).2 = [] ∧
    ((0 : ℚ) ≤ 5 + 1/10 ∧ (5 : ℚ) + 1/10 < 0 + 10) := by
  refine ⟨by decide!, by decide!, by norm_num⟩

/-- C8 witness: the amended theorem's dispatch clause applied to a concrete
seek into the middle of a note with no stale currently-playing entry. -/
theorem c8_amended_seek_then_tick_witness :
    0 ∈ (tick [⟨60, 0, 10, 100, 0⟩] 10 (1/10) (handleSeek 10 5 ⟨2, true, [0], []⟩)).2 :=
  c8_amended_seek_then_tick.2 [⟨60, 0, 10, 100, 0⟩] 10 5 (1/10) ⟨2, true, [0], []⟩ 0
    ⟨60, 0, 10, 100, 0⟩ rfl (by simp) (by norm_num [handleSeek]) (by norm_num [handleSeek])

/-- C3 witness: the amended theorem applied to the concrete tempo-change
input `c3Bytes`. -/
theorem c3_amended_tempo_fields_witness :
    ∃ (t : ℤ) (us : ℕ), (1/4 : ℚ) = ticksToSeconds t 480 us ∧
      (240 : ℚ) = (60000000 : ℚ) / (us : ℚ) := by
  have h := @c3_amended_tempo_fields c3Bytes ⟨[], 0, [⟨1/4, 240⟩]⟩ 480
    (by decide!) (by decide!) ⟨1/4, 240⟩ (by simp)
  exact h

/-- C4 witness: the amended theorem applied to `c4wBytes`, a file whose VLQs
are all non-negative and which has no tempo events. -/
theorem c4_amended_duration_nonneg_witness :
    (0 : ℚ) ≤ (MidiNote.mk 60 0 (1/2) 100 0).duration := by
  have h := @c4_amended_duration_nonneg c4wBytes ⟨[⟨60, 0, 1/2, 100, 0⟩], 1/2, []⟩
    (nonnegVLQs_of_check (by decide!)) (by decide!) rfl
  exact h ⟨60, 0, 1/2, 100, 0⟩ (by simp)

/-- C6 witness: the theorem applied to the four-byte buffer XXXX. -/
theorem c6_invalid_header_rejected_witness :
    parseMidiFile [88, 88, 88, 88] = .error .invalidHeader :=
  (@c6_invalid_header_rejected [88, 88, 88, 88] (by decide) (by decide!)).1

/-- C7 witness: the amended theorem applied to the decode of `c2Bytes`,
including the conjunct tying the output to the accumulator of the actual
`parseTracks` run. -/
theorem c7_amended_sorted_stable_duration_witness :
    ([⟨60, 0, 1/2, 100, 0⟩] : List MidiNote).Sorted noteLE ∧
    (1/2 : ℚ) = ([⟨60, 0, 1/2, 100, 0⟩] : List MidiNote).foldl maxEnd 0 ∧
    ∃ (trackCount division : Nat) (offF : Int) (accF : ParseAcc),
      getUint16 c2Bytes 10 = .ok trackCount ∧
      getUint16 c2Bytes 12 = .ok division ∧
      parseTracks c2Bytes (division &&& 0x7fff) trackCount 14 ⟨[], 0, [], 500000⟩ =
        .ok (offF, accF) ∧
      ([⟨60, 0, 1/2, 100, 0⟩] : List MidiNote) = accF.notes.insertionSort noteLE ∧
      ∀ q : ℚ, ([⟨60, 0, 1/2, 100, 0⟩] : List MidiNote).filter
          (fun x => decide (x.startTime = q)) =
        accF.notes.filter (fun x => decide (x.startTime = q)) := by
  have h := @c7_amended_sorted_stable_duration c2Bytes
    ⟨[⟨60, 0, 1/2, 100, 0⟩], 1/2, [⟨0, 120⟩]⟩ (by decide!)
  exact h

end PianoMidi
